import Mathlib

/-!
Shallow embedding of the furigana plugin (src/bulk.py, src/__init__.py,
src/app.py) over strings as lists of characters.  The tokenizer backend
(reading.py) and the codec (utils.removeFurigana) are not part of src/;
they are modelled from the spec where a claim depends on their behaviour,
and kept abstract (passed as parameters) where only the call structure
matters.
-/

namespace Furigana

/-- Strings are modelled as lists of characters. -/
abbrev Str := List Char

/-! ## Python string primitives -/

/-- Whitespace characters removed by Python str.strip (ASCII subset). -/
def isPyWs (c : Char) : Bool :=
  c = ' ' || c = '\t' || c = '\n' || c = '\r' || c = '\x0b' || c = '\x0c'

/-- Python str.strip: drop leading and trailing whitespace. -/
def pyStrip (s : Str) : Str :=
  ((s.dropWhile isPyWs).reverse.dropWhile isPyWs).reverse

/-! ## src/__init__.py: is_field_effectively_empty -/

/-- Scan for the closing quote of the regex piece `[^<]+?>`: the first
later occurrence of a closing angle bracket, aborting if an opening
angle bracket shows up first. -/
def tagClose : Str → Option Str
  | [] => none
  | c :: rest =>
    if c = '>' then some rest
    else if c = '<' then none
    else tagClose rest

/-- After an opening angle bracket, the remainder of a match of
`<[^<]+?>` needs at least one character that is not an opening bracket,
then runs to the first closing bracket. -/
def findTagEnd : Str → Option Str
  | [] => none
  | c :: rest => if c = '<' then none else tagClose rest

/-- Fueled left-to-right substitution re.sub of the pattern `<[^<]+?>`
by the empty string.  Fuel at least the length of the string makes the
zero-fuel branch unreachable. -/
def removeTagsF : Nat → Str → Str
  | _, [] => []
  | 0, s => s
  | n + 1, c :: cs =>
    if c = '<' then
      match findTagEnd cs with
      | some rest => removeTagsF n rest
      | none => c :: removeTagsF n cs
    else c :: removeTagsF n cs

/-- re.sub of `<[^<]+?>` with the empty replacement (src/__init__.py
line 43). -/
def removeTags (s : Str) : Str := removeTagsF s.length s

/-- Python str.replace of the six-character entity `&nbsp;` by the
empty string, left to right and non-overlapping. -/
def deleteNbsp : Str → Str
  | '&' :: 'n' :: 'b' :: 's' :: 'p' :: ';' :: rest => deleteNbsp rest
  | c :: cs => c :: deleteNbsp cs
  | [] => []

/-- src/__init__.py lines 40-44: a field is effectively empty when it is
falsy, or when removing tags, stripping outer whitespace and deleting
every `&nbsp;` leaves nothing. -/
def is_field_effectively_empty (s : Str) : Bool :=
  if s = [] then true
  else (deleteNbsp (pyStrip (removeTags s))).isEmpty

/-! ## Furigana codec (spec-modelled) -/

/-- Modelled from the spec: characters allowed in the base run of a
bracket annotation are non-bracket, non-whitespace, non-tag characters
(spec section 4.1, utils.py is not under src/). -/
def isBaseChar (c : Char) : Bool :=
  !(c = '[' || c = ']' || c = '<' || c = '>' || isPyWs c)

/-- Drop everything up to and including the first occurrence of `pat`
as a contiguous run; `none` when there is no occurrence. -/
def dropAfter (pat : Str) : Str → Option Str
  | [] => none
  | c :: cs =>
    if pat.isPrefixOf (c :: cs) then some ((c :: cs).drop pat.length)
    else dropAfter pat cs

/-- Whether `pat` occurs as a contiguous run inside `s`. -/
def occursIn (pat s : Str) : Bool := (dropAfter pat s).isSome

def rubyOpen : Str := [ '<' , 'r' , 'u' , 'b' , 'y' , '>' ]
def rubyCloseTag : Str := [ '<' , '/' , 'r' , 'u' , 'b' , 'y' , '>' ]
def rtOpen : Str := [ '<' , 'r' , 't' , '>' ]
def rtClose : Str := [ '<' , '/' , 'r' , 't' , '>' ]
def rpOpen : Str := [ '<' , 'r' , 'p' , '>' ]
def rpClose : Str := [ '<' , '/' , 'r' , 'p' , '>' ]

/-- A complete bracket group right after a base run: an opening square
bracket whose reading runs to the first closing square bracket.
Returns the text after the group. -/
def bracketTail : Str → Option Str
  | '[' :: rs => dropAfter [ ']' ] rs
  | _ => none

/-- Modelled from the spec: one left-to-right pass of the codec strip
(utils.removeFurigana is not under src/).  Bracket form: a nonempty run
of base characters immediately followed by a bracket group loses the
group and keeps the run.  Ruby form: ruby open and close tags are
deleted, rt and rp spans are deleted with their contents.  Everything
else is copied verbatim.  Fueled; fuel at least the length of the
string makes the zero-fuel branch unreachable. -/
def strip1F : Nat → Str → Str
  | _, [] => []
  | 0, s => s
  | n + 1, c :: cs =>
    if rubyOpen.isPrefixOf (c :: cs) then strip1F n ((c :: cs).drop 6)
    else if rubyCloseTag.isPrefixOf (c :: cs) then strip1F n ((c :: cs).drop 7)
    else if rtOpen.isPrefixOf (c :: cs) then
      match dropAfter rtClose ((c :: cs).drop 4) with
      | some r => strip1F n r
      | none => c :: strip1F n cs
    else if rpOpen.isPrefixOf (c :: cs) then
      match dropAfter rpClose ((c :: cs).drop 4) with
      | some r => strip1F n r
      | none => c :: strip1F n cs
    else if isBaseChar c then
      match bracketTail ((c :: cs).dropWhile isBaseChar) with
      | some r => (c :: cs).takeWhile isBaseChar ++ strip1F n r
      | none => (c :: cs).takeWhile isBaseChar ++ strip1F n ((c :: cs).dropWhile isBaseChar)
    else c :: strip1F n cs

/-- One strip pass with adequate fuel. -/
def strip1 (s : Str) : Str := strip1F s.length s

/-- Iterate strip passes to a fixpoint; every productive pass strictly
shortens the string, so fuel equal to the length suffices. -/
def stripFuel : Nat → Str → Str
  | 0, s => s
  | n + 1, s => if strip1 s = s then s else stripFuel n (strip1 s)

/-- Modelled from the spec: utils.removeFurigana (not under src/),
section 4.1 of the spec.  Strip passes are iterated to a fixpoint so
that the contract's idempotence requirement holds also when a removal
juxtaposes a new annotation pattern. -/
def removeFurigana (s : Str) : Str := stripFuel s.length s

/-- No position in the string starts a bracket annotation: no base
character immediately followed by an opening square bracket with a
closing square bracket somewhere later. -/
def noBracketAnnot : Str → Bool
  | [] => true
  | [_] => true
  | a :: b :: rest =>
    !(isBaseChar a && b = '[' && rest.contains ']') && noBracketAnnot (b :: rest)

/-- The string contains no annotation of either encoding: no bracket
annotation and none of the ruby family tags. -/
def annotationFree (s : Str) : Bool :=
  noBracketAnnot s && !occursIn rubyOpen s && !occursIn rubyCloseTag s
    && !occursIn rtOpen s && !occursIn rpOpen s

/-! ## Tokenizer adapter and annotator (spec-modelled) -/

/-- Modelled from the spec: a token of the morphological analyzer
(reading.py is not under src/): surface form, kana reading, and the
category collapsed to the numeral flag used by the skip rules. -/
structure Token where
  surface : Str
  reading : Str
  isNumeric : Bool

/-- The surface needs no reading at all: pure ASCII Latin, whitespace
or punctuation (spec section 4.3, skip rule 1). -/
def noReadingNeeded (s : Str) : Bool := s.all (fun c => c.toNat ≤ 0x7F)

/-- The surface is already entirely phonetic kana (spec section 4.3,
skip rule 2). -/
def isKana (c : Char) : Bool := 0x3040 ≤ c.toNat && c.toNat ≤ 0x30FF

def allKana (s : Str) : Bool := s.all isKana

/-- Bracket encoding of one annotation. -/
def bracketForm (surface reading : Str) : Str :=
  surface ++ '[' :: (reading ++ [ ']' ])

/-- Ruby encoding of one annotation. -/
def rubyForm (surface reading : Str) : Str :=
  rubyOpen ++ surface ++ rtOpen ++ reading ++ rtClose ++ rubyCloseTag

/-- Modelled from the spec: per-token output of the annotator, applying
the skip rules of section 4.3 in order and otherwise emitting the
configured encoding. -/
def tokenOutput (ignoreNumbers useRubyTags : Bool) (t : Token) : Str :=
  if noReadingNeeded t.surface then t.surface
  else if allKana t.surface then t.surface
  else if ignoreNumbers && t.isNumeric then t.surface
  else if t.reading.isEmpty || t.reading == t.surface then t.surface
  else if useRubyTags then rubyForm t.surface t.reading
  else bracketForm t.surface t.reading

/-- Split at the first closing angle bracket: the run before it (which
may not be empty for a tag) and the text after it. -/
def splitAtGt : Str → Option (Str × Str)
  | [] => none
  | c :: rest =>
    if c = '>' then some ([], rest)
    else
      match splitAtGt rest with
      | some (ins, aft) => some (c :: ins, aft)
      | none => none

/-- An HTML tag span `<[^>]+>` right after an opening angle bracket:
at least one character, then the first closing angle bracket. -/
def tagSpan (cs : Str) : Option (Str × Str) :=
  match splitAtGt cs with
  | some (ins, aft) => if ins.isEmpty then none else some (ins, aft)
  | none => none

/-- An entity reference right after an ampersand: one or more letters
closed by a semicolon. -/
def splitEntity : Str → Option (Str × Str)
  | [] => none
  | c :: rest =>
    if c.isAlpha then
      match rest with
      | ';' :: aft => some ([c], aft)
      | _ =>
        match splitEntity rest with
        | some (ent, aft) => some (c :: ent, aft)
        | none => none
    else none

/-- Modelled from the spec: the annotator of section 4.3 (reading.py is
not under src/).  A cursor walks the text: tags and entity references
are copied verbatim, a token whose surface is found at the cursor is
rendered through the skip rules, anything else (including all text once
the tokens run out) is copied through unchanged.  Fueled; fuel at least
the length of the string makes the zero-fuel branch unreachable. -/
def annotateF (ignoreNumbers useRubyTags : Bool) : Nat → List Token → Str → Str
  | _, [], s => s
  | _, _ :: _, [] => []
  | 0, _, s => s
  | n + 1, t :: ts, c :: cs =>
    if c = '<' then
      match tagSpan cs with
      | some (ins, aft) =>
        '<' :: (ins ++ '>' :: annotateF ignoreNumbers useRubyTags n (t :: ts) aft)
      | none => c :: annotateF ignoreNumbers useRubyTags n (t :: ts) cs
    else if c = '&' then
      match splitEntity cs with
      | some (ent, aft) =>
        '&' :: (ent ++ ';' :: annotateF ignoreNumbers useRubyTags n (t :: ts) aft)
      | none => c :: annotateF ignoreNumbers useRubyTags n (t :: ts) cs
    else if t.surface ≠ [] ∧ t.surface.isPrefixOf (c :: cs) then
      tokenOutput ignoreNumbers useRubyTags t
        ++ annotateF ignoreNumbers useRubyTags n ts ((c :: cs).drop t.surface.length)
    else c :: annotateF ignoreNumbers useRubyTags n (t :: ts) cs

/-- The annotator with adequate fuel. -/
def annotate (ignoreNumbers useRubyTags : Bool) (toks : List Token) (s : Str) : Str :=
  annotateF ignoreNumbers useRubyTags s.length toks s

/-- Modelled from the spec: MecabController.reading (reading.py is not
under src/), parameterized by the external analyzer `tok`. -/
def mecabReading (tok : Str → List Token) (s : Str)
    (ignoreNumbers useRubyTags : Bool) : Str :=
  annotate ignoreNumbers useRubyTags (tok s) s

/-! ## src/bulk.py: generateFurigana -/

/-- src/bulk.py lines 73-83, with the tokenize-and-annotate pass
`mecab.reading` abstract. -/
def generateFurigana (reading : Str → Bool → Bool → Str) (html : Str)
    (ignoreNumbers useRubyTags : Bool) : Str :=
  if html.isEmpty || (pyStrip html).isEmpty then []
  else reading (removeFurigana html) ignoreNumbers useRubyTags

/-- The error raised when the analyzer failed to start or crashed and
the single retry also failed (spec sections 4.2 and 7). -/
structure TokenizerUnavailable where
  message : Str

/-- src/bulk.py lines 73-83 with a fallible tokenize-and-annotate pass:
the function has no handler, so an error of the pass is the result of
the call and no string is produced. -/
def generateFuriganaE
    (readingE : Str → Bool → Bool → Except TokenizerUnavailable Str)
    (html : Str) (ignoreNumbers useRubyTags : Bool) :
    Except TokenizerUnavailable Str :=
  if html.isEmpty || (pyStrip html).isEmpty then Except.ok []
  else readingE (removeFurigana html) ignoreNumbers useRubyTags

/-! ## src/app.py: the web demo endpoint -/

/-- src/app.py lines 17-23: the endpoint feeds the posted text straight
to mecab.reading with the module's default ignoreNumbers; there is no
empty-input guard and no strip pass. -/
def api_furigana (tok : Str → List Token) (defaultIgnoreNumbers : Bool)
    (text : Str) (useRubyTags : Bool) : Str :=
  mecabReading tok text defaultIgnoreNumbers useRubyTags

/-! ## src/bulk.py: bulkGenerate -/

/-- A note is a field-name-to-content association list. -/
abbrev Note := List (Str × Str)

def noteGet : Note → Str → Option Str
  | [], _ => none
  | kv :: rest, f => if kv.1 = f then some kv.2 else noteGet rest f

def noteSet : Note → Str → Str → Note
  | [], _, _ => []
  | kv :: rest, f, v =>
    if kv.1 = f then (kv.1, v) :: noteSet rest f v else kv :: noteSet rest f v

/-- A configured source/destination field pair; an empty name models a
missing entry of the pair dictionary. -/
structure FieldPair where
  source : Str
  destination : Str

/-- src/bulk.py lines 43-58: one field pair on the (threaded) note,
with `gen` the furigana generation of the pair's source text. -/
def processPair (gen : Str → Str) (acc : Note × Bool) (p : FieldPair) : Note × Bool :=
  if p.source = [] ∨ p.destination = [] then acc
  else
    match noteGet acc.1 p.source, noteGet acc.1 p.destination with
    | some sv, some dv =>
      if sv = [] then acc
      else if dv ≠ gen sv then (noteSet acc.1 p.destination (gen sv), true)
      else acc
    | _, _ => acc

/-- src/bulk.py lines 41-58: all field pairs in order on one note,
starting from the unmodified flag. -/
def processNote (gen : Str → Str) (pairs : List FieldPair) (note : Note) : Note × Bool :=
  pairs.foldl (processPair gen) (note, false)

/-- An item is a no-op for a pair: a configured field name is missing,
a field is absent from the note, the source is empty, or the generated
text equals the destination content. -/
def pairNoOp (gen : Str → Str) (note : Note) (p : FieldPair) : Bool :=
  p.source == [] || p.destination == [] ||
    match noteGet note p.source, noteGet note p.destination with
    | some sv, some dv => sv == [] || gen sv == dv
    | _, _ => true

/-- The destination field names of a pair list. -/
def pairDests (pairs : List FieldPair) : List Str :=
  pairs.map (fun p => p.destination)

/-- The running state of bulkGenerate: the collection, the notes passed
to update_note in order, the modified count, the progress invocations
as (done, total, invocation time) triples, the index of the next
time.time() read, and last_progress_update. -/
structure BulkState where
  col : Nat → Note
  writes : List Nat
  count : Nat
  events : List (Nat × Nat × Rat)
  clock : Nat
  last : Rat

/-- src/bulk.py lines 40-63: process one note and, when modified, store
it and bump the count. -/
def noteStep (gen : Str → Str) (pairs : List FieldPair) (nid : Nat)
    (st : BulkState) : BulkState :=
  if (processNote gen pairs (st.col nid)).2 then
    { st with
      col := fun m => if m = nid then (processNote gen pairs (st.col nid)).1
        else st.col m
      writes := st.writes ++ [nid]
      count := st.count + 1 }
  else st

/-- src/bulk.py lines 65-69: read the clock; when at least a tenth of a
second has passed since last_progress_update, invoke the progress
callback with (i + 1, total) and set last_progress_update from a second
clock read. -/
def clockStep (total : Nat) (τ : Nat → Rat) (i : Nat) (st : BulkState) : BulkState :=
  if τ st.clock - st.last ≥ 1 / 10 then
    { st with
      events := st.events ++ [(i + 1, total, τ st.clock)]
      clock := st.clock + 2
      last := τ (st.clock + 1) }
  else { st with clock := st.clock + 1 }

def bulkStep (gen : Str → Str) (pairs : List FieldPair) (total : Nat)
    (τ : Nat → Rat) (i nid : Nat) (st : BulkState) : BulkState :=
  clockStep total τ i (noteStep gen pairs nid st)

def bulkRun (gen : Str → Str) (pairs : List FieldPair) (total : Nat)
    (τ : Nat → Rat) : List Nat → Nat → BulkState → BulkState
  | [], _, st => st
  | nid :: rest, i, st =>
    bulkRun gen pairs total τ rest (i + 1) (bulkStep gen pairs total τ i nid st)

/-- src/bulk.py lines 29-71. -/
def bulkGenerate (gen : Str → Str) (pairs : List FieldPair) (τ : Nat → Rat)
    (noteIds : List Nat) (col0 : Nat → Note) : BulkState :=
  bulkRun gen pairs noteIds.length τ noteIds 0
    { col := col0, writes := [], count := 0, events := [], clock := 0, last := 0 }

/-- Two consecutive progress invocations are at least a tenth of a
second apart. -/
def gapOK (a b : Nat × Nat × Rat) : Prop := a.2.2 + 1 / 10 ≤ b.2.2

/-! ## src/__init__.py: scan pre-filter and background update -/

/-- The spec's pure pre-filter predicate needsGeneration. -/
def needsGeneration (sourceText destText : Str) : Bool :=
  is_field_effectively_empty destText || sourceText == destText

/-- src/__init__.py lines 58-68: the per-pair decision of the scan. -/
def pairTriggers (note : Note) (p : FieldPair) : Bool :=
  match noteGet note p.source, noteGet note p.destination with
  | some sv, some dv => !sv.isEmpty && (is_field_effectively_empty dv || sv == dv)
  | _, _ => false

/-- A configured scan rule. -/
structure Rule where
  deckName : Str
  fieldPairs : List FieldPair

/-- A note of the scan together with the deck of its first card; `none`
models a note without cards or with an unresolvable deck. -/
structure DNote where
  fields : Note
  deck : Option Str

/-- src/__init__.py line 109: the deck equals the rule's deck or lives
under it. -/
def deckMatches (ruleDeck noteDeck : Str) : Bool :=
  noteDeck == ruleDeck || (ruleDeck ++ [ ':' , ':' ]).isPrefixOf noteDeck

/-- src/__init__.py lines 110-122: one field pair of the background
update, re-checking the pre-filter before generating. -/
def doPair (gen : Str → Str) (acc : Note × Bool) (p : FieldPair) : Note × Bool :=
  match noteGet acc.1 p.source, noteGet acc.1 p.destination with
  | some sv, some dv =>
    if sv = [] then acc
    else if is_field_effectively_empty dv || sv == dv then
      if gen sv ≠ dv then (noteSet acc.1 p.destination (gen sv), true) else acc
    else acc
  | _, _ => acc

/-- src/__init__.py lines 102-122: one rule on one note of the
background update. -/
def doRule (gen : Str → Str) (dn : DNote) (acc : Note × Bool) (rule : Rule) :
    Note × Bool :=
  match dn.deck with
  | none => acc
  | some dname =>
    if deckMatches rule.deckName dname then rule.fieldPairs.foldl (doPair gen) acc
    else acc

/-- src/__init__.py lines 100-122: all rules on one note. -/
def doUpdateNote (gen : Str → Str) (rules : List Rule) (dn : DNote) : Note × Bool :=
  rules.foldl (doRule gen dn) (dn.fields, false)

/-- The running state of do_update: collection, flushed note ids in
order, and the modified count. -/
structure ScanState where
  col : Nat → DNote
  flushes : List Nat
  count : Nat

/-- src/__init__.py lines 99-126: process one note and flush it only
when modified. -/
def scanStep (gen : Str → Str) (rules : List Rule) (nid : Nat)
    (st : ScanState) : ScanState :=
  if (doUpdateNote gen rules (st.col nid)).2 then
    { col := fun m =>
        if m = nid then { st.col nid with fields := (doUpdateNote gen rules (st.col nid)).1 }
        else st.col m
      flushes := st.flushes ++ [nid]
      count := st.count + 1 }
  else st

def scanRun (gen : Str → Str) (rules : List Rule) : List Nat → ScanState → ScanState
  | [], st => st
  | nid :: rest, st => scanRun gen rules rest (scanStep gen rules nid st)

/-- src/__init__.py lines 97-126. -/
def do_update (gen : Str → Str) (rules : List Rule) (nids : List Nat)
    (col0 : Nat → DNote) : ScanState :=
  scanRun gen rules nids { col := col0, flushes := [], count := 0 }

/-- The destination field names of all rules of the scan. -/
def ruleDests (rules : List Rule) : List Str :=
  rules.foldr (fun rule acc => pairDests rule.fieldPairs ++ acc) []

/-! ## src/__init__.py: find_notes_to_process -/

/-- Add to the id set: append only when absent. -/
def insertId (acc : List Nat) (nid : Nat) : List Nat :=
  if nid ∈ acc then acc else acc ++ [nid]

/-- src/__init__.py lines 56-68: scan the notes of one rule's deck
query, adding a note as soon as some pair triggers. -/
def scanNids (getNote : Nat → Note) (rule : Rule) : List Nat → List Nat → List Nat
  | [], acc => acc
  | nid :: rest, acc =>
    scanNids getNote rule rest
      (if rule.fieldPairs.any (pairTriggers (getNote nid)) then insertId acc nid
       else acc)

/-- src/__init__.py lines 46-70, with the deck query abstract. -/
def findLoop (findNotes : Str → List Nat) (getNote : Nat → Note) :
    List Rule → List Nat → List Nat
  | [], acc => acc
  | rule :: rest, acc =>
    findLoop findNotes getNote rest
      (if rule.deckName = [] then acc
       else scanNids getNote rule (findNotes rule.deckName) acc)

def find_notes_to_process (findNotes : Str → List Nat) (getNote : Nat → Note)
    (rules : List Rule) : List Nat :=
  findLoop findNotes getNote rules []

/-! # Theorems -/

/-! ## List helpers -/

theorem isPrefixOf_exists : ∀ (pat s : Str), pat.isPrefixOf s = true → ∃ t, s = pat ++ t := by
  intro pat
  induction pat with
  | nil => intro s _; exact ⟨s, rfl⟩
  | cons p ps ih =>
    intro s h
    match s with
    | [] => simp [List.isPrefixOf] at h
    | c :: cs =>
      simp only [List.isPrefixOf, Bool.and_eq_true, beq_iff_eq] at h
      obtain ⟨t, ht⟩ := ih cs h.2
      exact ⟨t, by rw [h.1, ht]; rfl⟩

theorem dropAfter_some_length (pat : Str) (hpat : pat ≠ []) :
    ∀ (s r : Str), dropAfter pat s = some r → r.length < s.length := by
  intro s
  induction s with
  | nil => intro r h; simp [dropAfter] at h
  | cons c cs ih =>
    intro r h
    rw [dropAfter] at h
    split at h
    · have hlen : 1 ≤ pat.length := by
        cases pat with
        | nil => exact absurd rfl hpat
        | cons a as => simp
      simp only [Option.some.injEq] at h
      subst h
      simp only [List.length_drop, List.length_cons]
      omega
    · have := ih r h
      simp only [List.length_cons]
      omega

theorem dropAfter_single_mem (x : Char) :
    ∀ (s r : Str), dropAfter [x] s = some r → x ∈ s := by
  intro s
  induction s with
  | nil => intro r h; simp [dropAfter] at h
  | cons c cs ih =>
    intro r h
    rw [dropAfter] at h
    split at h
    · rename_i hpre
      simp only [List.isPrefixOf, Bool.and_eq_true, beq_iff_eq] at hpre
      exact hpre.1 ▸ List.mem_cons_self c cs
    · exact List.mem_cons_of_mem c (ih r h)

theorem occursIn_head_match (pat : Str) (c : Char) (cs : Str)
    (h : pat.isPrefixOf (c :: cs) = true) : occursIn pat (c :: cs) = true := by
  unfold occursIn
  rw [dropAfter, if_pos h]
  rfl

theorem occursIn_cons (pat : Str) (x : Char) (l : Str)
    (h : occursIn pat l = true) : occursIn pat (x :: l) = true := by
  unfold occursIn at h ⊢
  rw [dropAfter]
  split
  · rfl
  · exact h

theorem occursIn_append (pat : Str) :
    ∀ (pre l : Str), occursIn pat (pre ++ l) = false → occursIn pat l = false := by
  intro pre
  induction pre with
  | nil => intro l h; exact h
  | cons x xs ih =>
    intro l h
    apply ih
    cases hx : occursIn pat (xs ++ l) with
    | false => rfl
    | true =>
      rw [List.cons_append, occursIn_cons pat x (xs ++ l) hx] at h
      exact absurd h (by simp)

/-! ## noBracketAnnot and annotationFree helpers -/

theorem noBracketAnnot_cons (x : Char) (l : Str)
    (h : noBracketAnnot (x :: l) = true) : noBracketAnnot l = true := by
  match l with
  | [] => rfl
  | b :: t =>
    rw [noBracketAnnot, Bool.and_eq_true] at h
    exact h.2

theorem noBracketAnnot_append :
    ∀ (pre l : Str), noBracketAnnot (pre ++ l) = true → noBracketAnnot l = true := by
  intro pre
  induction pre with
  | nil => intro l h; exact h
  | cons x xs ih => intro l h; exact ih l (noBracketAnnot_cons x (xs ++ l) h)

theorem noBracketAnnot_annot_false :
    ∀ (pre : Str) (a : Char) (rs : Str), isBaseChar a = true → ']' ∈ rs →
      noBracketAnnot (pre ++ a :: '[' :: rs) = false := by
  intro pre
  induction pre with
  | nil =>
    intro a rs ha hm
    rw [List.nil_append, noBracketAnnot]
    simp [ha, hm]
  | cons x xs ih =>
    intro a rs ha hm
    have htail := ih a rs ha hm
    rw [List.cons_append]
    match hxs : xs ++ a :: '[' :: rs with
    | [] => exact absurd hxs (by simp)
    | b :: t =>
      rw [noBracketAnnot, ← hxs, htail, Bool.and_false]

theorem annotationFree_parts (s : Str) (h : annotationFree s = true) :
    noBracketAnnot s = true ∧ occursIn rubyOpen s = false
      ∧ occursIn rubyCloseTag s = false ∧ occursIn rtOpen s = false
      ∧ occursIn rpOpen s = false := by
  unfold annotationFree at h
  simp only [Bool.and_eq_true, Bool.not_eq_true'] at h
  exact ⟨h.1.1.1.1, h.1.1.1.2, h.1.1.2, h.1.2, h.2⟩

theorem annotationFree_append (pre l : Str)
    (h : annotationFree (pre ++ l) = true) : annotationFree l = true := by
  obtain ⟨h1, h2, h3, h4, h5⟩ := annotationFree_parts _ h
  unfold annotationFree
  rw [noBracketAnnot_append pre l h1, occursIn_append _ pre l h2,
    occursIn_append _ pre l h3, occursIn_append _ pre l h4,
    occursIn_append _ pre l h5]
  rfl

/-! ## strip pass lemmas -/

theorem strip1F_shrink :
    ∀ (n : Nat) (s : Str), s.length ≤ n →
      strip1F n s = s ∨ (strip1F n s).length < s.length := by
  intro n
  induction n with
  | zero =>
    intro s hs
    match s with
    | [] => left; rfl
    | c :: cs => simp at hs
  | succ n ih =>
    intro s hs
    have hle : ∀ (u : Str), u.length ≤ n → (strip1F n u).length ≤ u.length := by
      intro u hu
      rcases ih u hu with h | h
      · rw [h]
      · omega
    match s with
    | [] => left; rfl
    | c :: cs =>
      simp only [List.length_cons] at hs
      rw [strip1F]
      split
      · right
        have h6 : ((c :: cs).drop 6).length ≤ n := by
          simp only [List.length_drop, List.length_cons]; omega
        have := hle _ h6
        simp only [List.length_drop, List.length_cons] at *
        omega
      split
      · right
        have h7 : ((c :: cs).drop 7).length ≤ n := by
          simp only [List.length_drop, List.length_cons]; omega
        have := hle _ h7
        simp only [List.length_drop, List.length_cons] at *
        omega
      split
      · split
        · rename_i r heq
          right
          have hr := dropAfter_some_length rtClose (by simp [rtClose]) _ _ heq
          simp only [List.length_drop, List.length_cons] at hr
          have hrn : r.length ≤ n := by omega
          have := hle r hrn
          simp only [List.length_cons]
          omega
        · rcases ih cs (by omega) with h | h
          · left; rw [h]
          · right; simp only [List.length_cons]; omega
      split
      · split
        · rename_i r heq
          right
          have hr := dropAfter_some_length rpClose (by simp [rpClose]) _ _ heq
          simp only [List.length_drop, List.length_cons] at hr
          have hrn : r.length ≤ n := by omega
          have := hle r hrn
          simp only [List.length_cons]
          omega
        · rcases ih cs (by omega) with h | h
          · left; rw [h]
          · right; simp only [List.length_cons]; omega
      split
      · rename_i hbase
        have htw : (c :: cs).takeWhile isBaseChar = c :: cs.takeWhile isBaseChar :=
          List.takeWhile_cons_of_pos hbase
        have hsplit : (c :: cs).takeWhile isBaseChar ++ (c :: cs).dropWhile isBaseChar
            = c :: cs := List.takeWhile_append_dropWhile isBaseChar (c :: cs)
        have hlensplit : ((c :: cs).takeWhile isBaseChar).length
            + ((c :: cs).dropWhile isBaseChar).length = cs.length + 1 := by
          rw [← List.length_append, hsplit]; rfl
        have htwlen : 1 ≤ ((c :: cs).takeWhile isBaseChar).length := by
          rw [htw]; simp
        split
        · rename_i r heq
          right
          unfold bracketTail at heq
          split at heq
          · rename_i rs hdweq
            have hr := dropAfter_some_length [ ']' ] (by simp) _ _ heq
            have hrs : ((c :: cs).dropWhile isBaseChar).length = rs.length + 1 := by
              rw [hdweq]; rfl
            have hrn : r.length ≤ n := by omega
            have := hle r hrn
            simp only [List.length_append, List.length_cons]
            omega
          · exact absurd heq (by simp)
        · rcases ih ((c :: cs).dropWhile isBaseChar) (by omega) with h | h
          · left; rw [h, hsplit]
          · right; simp only [List.length_append, List.length_cons]; omega
      · rcases ih cs (by omega) with h | h
        · left; rw [h]
        · right; simp only [List.length_cons]; omega

theorem strip1F_of_annotationFree :
    ∀ (n : Nat) (s : Str), s.length ≤ n → annotationFree s = true →
      strip1F n s = s := by
  intro n
  induction n with
  | zero =>
    intro s hs _
    match s with
    | [] => rfl
    | c :: cs => simp at hs
  | succ n ih =>
    intro s hs hfree
    match s with
    | [] => rfl
    | c :: cs =>
      obtain ⟨hnb, hro, hrc, hrt, hrp⟩ := annotationFree_parts _ hfree
      rw [strip1F]
      split
      · rename_i hpre
        rw [occursIn_head_match rubyOpen c cs hpre] at hro
        exact absurd hro (by simp)
      split
      · rename_i hpre
        rw [occursIn_head_match rubyCloseTag c cs hpre] at hrc
        exact absurd hrc (by simp)
      split
      · rename_i hpre
        rw [occursIn_head_match rtOpen c cs hpre] at hrt
        exact absurd hrt (by simp)
      split
      · rename_i hpre
        rw [occursIn_head_match rpOpen c cs hpre] at hrp
        exact absurd hrp (by simp)
      split
      · rename_i hbase
        have htw : (c :: cs).takeWhile isBaseChar = c :: cs.takeWhile isBaseChar :=
          List.takeWhile_cons_of_pos hbase
        have hsplit : (c :: cs).takeWhile isBaseChar ++ (c :: cs).dropWhile isBaseChar
            = c :: cs := List.takeWhile_append_dropWhile isBaseChar (c :: cs)
        split
        · rename_i r heq
          unfold bracketTail at heq
          split at heq
          · rename_i rs hdweq
            have hmem : ']' ∈ rs := dropAfter_single_mem _ _ _ heq
            rcases List.eq_nil_or_concat ((c :: cs).takeWhile isBaseChar) with hnil | hcat
            · rw [hnil] at htw; exact absurd htw (by simp)
            · obtain ⟨pre, a, hpa⟩ := hcat
              rw [List.concat_eq_append] at hpa
              have ha : isBaseChar a = true := by
                apply List.mem_takeWhile_imp (l := c :: cs)
                rw [hpa]
                exact List.mem_append_right pre (List.mem_singleton.mpr rfl)
              have hshape : c :: cs = pre ++ a :: '[' :: rs := by
                rw [← hsplit, hpa, hdweq, List.append_assoc]
                rfl
              rw [hshape] at hnb
              rw [noBracketAnnot_annot_false pre a rs ha hmem] at hnb
              exact absurd hnb (by simp)
          · exact absurd heq (by simp)
        · have hfree2 : annotationFree ((c :: cs).dropWhile isBaseChar) = true := by
            apply annotationFree_append ((c :: cs).takeWhile isBaseChar)
            rw [hsplit]
            exact hfree
          have hdwlen : ((c :: cs).dropWhile isBaseChar).length ≤ cs.length := by
            have htwlen : 1 ≤ ((c :: cs).takeWhile isBaseChar).length := by
              rw [htw]; simp
            have : ((c :: cs).takeWhile isBaseChar).length
                + ((c :: cs).dropWhile isBaseChar).length = cs.length + 1 := by
              rw [← List.length_append, hsplit]; rfl
            omega
          rw [ih ((c :: cs).dropWhile isBaseChar)
            (by simp only [List.length_cons] at hs; omega) hfree2, hsplit]
      · have hfree2 : annotationFree cs = true := annotationFree_append [c] cs hfree
        rw [ih cs (by simp only [List.length_cons] at hs; omega) hfree2]

theorem strip1_shrink (s : Str) : strip1 s = s ∨ (strip1 s).length < s.length :=
  strip1F_shrink s.length s le_rfl

theorem stripFuel_of_fix : ∀ (n : Nat) (s : Str), strip1 s = s → stripFuel n s = s := by
  intro n s h
  cases n with
  | zero => rfl
  | succ n => rw [stripFuel, if_pos h]

theorem stripFuel_reaches :
    ∀ (n : Nat) (s : Str), s.length ≤ n → strip1 (stripFuel n s) = stripFuel n s := by
  intro n
  induction n with
  | zero =>
    intro s hs
    have : s = [] := List.length_eq_zero.mp (Nat.le_zero.mp hs)
    subst this
    rfl
  | succ n ih =>
    intro s hs
    by_cases h : strip1 s = s
    · rw [stripFuel, if_pos h, h]
    · rw [stripFuel, if_neg h]
      rcases strip1_shrink s with h' | h'
      · exact absurd h' h
      · exact ih (strip1 s) (by omega)

/-! ## Whitespace helpers -/

theorem dropWhile_of_all (p : Char → Bool) :
    ∀ (l : Str), l.all p = true → l.dropWhile p = [] := by
  intro l
  induction l with
  | nil => intro _; rfl
  | cons c cs ih =>
    intro h
    simp only [List.all_cons, Bool.and_eq_true] at h
    rw [List.dropWhile_cons_of_pos h.1]
    exact ih h.2

theorem pyStrip_of_all_ws (s : Str) (h : s.all isPyWs = true) : pyStrip s = [] := by
  unfold pyStrip
  rw [dropWhile_of_all isPyWs s h]
  rfl

theorem isPyWs_ascii (c : Char) (h : isPyWs c = true) : c.toNat ≤ 0x7F := by
  unfold isPyWs at h
  simp only [Bool.or_eq_true, decide_eq_true_eq] at h
  rcases h with ((((h | h) | h) | h) | h) | h <;> subst h <;> decide

theorem annotateF_ws (iN uR : Bool) :
    ∀ (n : Nat) (toks : List Token) (s : Str),
      s.length ≤ n → s.all isPyWs = true → annotateF iN uR n toks s = s := by
  intro n
  induction n with
  | zero =>
    intro toks s hs _
    match toks, s with
    | [], s => rfl
    | _ :: _, [] => rfl
    | _ :: _, _ :: _ => simp at hs
  | succ n ih =>
    intro toks s hs hws
    match toks, s with
    | [], s => rfl
    | t :: ts, [] => rfl
    | t :: ts, c :: cs =>
      simp only [List.length_cons] at hs
      simp only [List.all_cons, Bool.and_eq_true] at hws
      rw [annotateF, if_neg, if_neg]
      · split
        · rename_i hcond
          obtain ⟨t', hts⟩ := isPrefixOf_exists _ _ hcond.2
          have hall : (t.surface).all isPyWs = true ∧ t'.all isPyWs = true := by
            have : ((c :: cs).all isPyWs) = true := by
              simp only [List.all_cons, Bool.and_eq_true]
              exact hws
            rw [hts, List.all_append, Bool.and_eq_true] at this
            exact this
          have hnrn : noReadingNeeded t.surface = true := by
            unfold noReadingNeeded
            rw [List.all_eq_true] at hall ⊢
            intro x hx
            have := hall.1 x hx
            simp only [decide_eq_true_eq] at this ⊢
            exact isPyWs_ascii x (by simpa using this)
          have hdrop : (c :: cs).drop t.surface.length = t' := by
            rw [hts, List.drop_left]
          have hslen : 1 ≤ t.surface.length := by
            cases hsur : t.surface with
            | nil => exact absurd hsur hcond.1
            | cons a as => simp
          have hlen2 : t'.length ≤ n := by
            have : (c :: cs).length = t.surface.length + t'.length := by
              rw [hts, List.length_append]
            simp only [List.length_cons] at this
            omega
          have hall2 : t'.all isPyWs = true := hall.2
          rw [hdrop, ih ts t' hlen2 hall2]
          unfold tokenOutput
          rw [if_pos hnrn, ← hts]
        · rw [ih (t :: ts) cs (by omega) hws.2]
      · intro hc
        rw [hc] at hws
        exact absurd hws.1 (by decide)
      · intro hc
        rw [hc] at hws
        exact absurd hws.1 (by decide)

/-! ## Claim C1: empty or whitespace-only input -/

/-- C1: generateFurigana returns the empty string for empty or
whitespace-only input, for every tokenize-and-annotate pass (so in
particular without invoking the tokenizer: even an always-failing pass
yields ok of the empty string) and all flags. -/
theorem generateFurigana_empty_input
    (reading : Str → Bool → Bool → Str)
    (readingE : Str → Bool → Bool → Except TokenizerUnavailable Str)
    (html : Str) (ignoreNumbers useRubyTags : Bool)
    (h : html.all isPyWs = true) :
    generateFurigana reading html ignoreNumbers useRubyTags = []
    ∧ generateFuriganaE readingE html ignoreNumbers useRubyTags = Except.ok [] := by
  have hstrip : (pyStrip html).isEmpty = true :=
    List.isEmpty_iff.mpr (pyStrip_of_all_ws html h)
  constructor
  · unfold generateFurigana
    rw [if_pos (by rw [hstrip, Bool.or_true])]
  · unfold generateFuriganaE
    rw [if_pos (by rw [hstrip, Bool.or_true])]

/-- Witness for C1 at the empty string and at three spaces. -/
theorem generateFurigana_empty_input_witness :
    (("".toList).all isPyWs = true ∧ ("   ".toList).all isPyWs = true)
    ∧ generateFurigana (fun s _ _ => s) ("".toList) true false = []
    ∧ generateFurigana (fun s _ _ => s) ("   ".toList) false true = []
    ∧ generateFuriganaE (fun _ _ _ => Except.error ⟨"down".toList⟩)
        ("   ".toList) true false = Except.ok [] :=
  ⟨⟨by decide, by decide⟩,
    (generateFurigana_empty_input (fun s _ _ => s)
      (fun _ _ _ => Except.error ⟨"down".toList⟩) ("".toList) true false (by decide)).1,
    (generateFurigana_empty_input (fun s _ _ => s)
      (fun _ _ _ => Except.error ⟨"down".toList⟩) ("   ".toList) false true (by decide)).1,
    (generateFurigana_empty_input (fun s _ _ => s)
      (fun _ _ _ => Except.error ⟨"down".toList⟩) ("   ".toList) true false (by decide)).2⟩

/-! ## Claim C2: strip then tokenize-and-annotate -/

/-- C2: on input that is not empty and not whitespace-only,
generateFurigana returns exactly the tokenize-and-annotate pass applied
to the text with all existing furigana removed. -/
theorem generateFurigana_strip_then_read
    (reading : Str → Bool → Bool → Str) (html : Str)
    (ignoreNumbers useRubyTags : Bool)
    (h1 : html ≠ []) (h2 : pyStrip html ≠ []) :
    generateFurigana reading html ignoreNumbers useRubyTags
      = reading (removeFurigana html) ignoreNumbers useRubyTags := by
  unfold generateFurigana
  rw [if_neg]
  rw [List.isEmpty_eq_false.mpr h1, List.isEmpty_eq_false.mpr h2]
  simp

/-- Witness for C2 at a concrete non-empty input. -/
theorem generateFurigana_strip_then_read_witness :
    ("abc[xy]".toList ≠ ([] : Str) ∧ pyStrip ("abc[xy]".toList) ≠ [])
    ∧ generateFurigana (fun s _ _ => 'R' :: s) ("abc[xy]".toList) true false
        = 'R' :: removeFurigana ("abc[xy]".toList) :=
  ⟨⟨by decide, by decide⟩,
    generateFurigana_strip_then_read (fun s _ _ => 'R' :: s) ("abc[xy]".toList)
      true false (by decide) (by decide)⟩

/-! ## Claim C4: tokenizer failure propagates -/

/-- C4: when the tokenize-and-annotate pass fails with
TokenizerUnavailable, generateFurigana propagates exactly that error
(its body has no handler) and produces no output string. -/
theorem generateFurigana_propagates_tokenizer_error
    (readingE : Str → Bool → Bool → Except TokenizerUnavailable Str)
    (html : Str) (ignoreNumbers useRubyTags : Bool) (e : TokenizerUnavailable)
    (h1 : html ≠ []) (h2 : pyStrip html ≠ [])
    (he : readingE (removeFurigana html) ignoreNumbers useRubyTags
      = Except.error e) :
    generateFuriganaE readingE html ignoreNumbers useRubyTags
      = Except.error e := by
  unfold generateFuriganaE
  rw [if_neg, he]
  rw [List.isEmpty_eq_false.mpr h1, List.isEmpty_eq_false.mpr h2]
  simp

/-- Witness for C4 with an always-failing pass on a concrete input. -/
theorem generateFurigana_propagates_tokenizer_error_witness :
    ("abc".toList ≠ ([] : Str) ∧ pyStrip ("abc".toList) ≠ [])
    ∧ generateFuriganaE (fun _ _ _ => Except.error ⟨"down".toList⟩)
        ("abc".toList) true false = Except.error ⟨"down".toList⟩ :=
  ⟨⟨by decide, by decide⟩,
    generateFurigana_propagates_tokenizer_error
      (fun _ _ _ => Except.error ⟨"down".toList⟩) ("abc".toList) true false
      ⟨"down".toList⟩ (by decide) (by decide) rfl⟩

/-! ## Claim C3: the web demo endpoint versus the engine -/

theorem api_whitespace_ne (tok : Str → List Token) (dflt n r : Bool) :
    api_furigana tok dflt ("   ".toList) r
      ≠ generateFurigana (mecabReading tok) ("   ".toList) n r := by
  have hapi : api_furigana tok dflt ("   ".toList) r = "   ".toList := by
    unfold api_furigana mecabReading annotate
    exact annotateF_ws dflt r _ (tok ("   ".toList)) ("   ".toList) le_rfl (by decide)
  have hgen : generateFurigana (mecabReading tok) ("   ".toList) n r = [] :=
    (generateFurigana_empty_input (mecabReading tok)
      (fun _ _ _ => Except.ok []) ("   ".toList) n r (by decide)).1
  rw [hapi, hgen]
  decide

/-- C3 counterexample: the endpoint and the engine do not agree on
every text: on a whitespace-only text the endpoint hands the text to
the tokenize-and-annotate pass (which copies it through unchanged, for
every tokenizer) while generateFurigana returns the empty string. -/
theorem api_furigana_diverges :
    ¬ (∀ (tok : Str → List Token) (flags : Bool × Bool) (text : Str),
        api_furigana tok flags.1 text flags.2
          = generateFurigana (mecabReading tok) text flags.1 flags.2) :=
  fun h =>
    api_whitespace_ne (fun _ => []) true true false
      (h (fun _ => []) (true, false) ("   ".toList))

/-- C3 amended: the endpoint agrees with the engine exactly on text
that is not empty, not whitespace-only, and carries no existing
furigana (stripping it is the identity), with the engine run at the
demo module's default ignoreNumbers. -/
theorem api_furigana_agrees_on_clean_input
    (tok : Str → List Token) (defaultIgnoreNumbers useRubyTags : Bool)
    (text : Str) (h1 : text ≠ []) (h2 : pyStrip text ≠ [])
    (h3 : removeFurigana text = text) :
    api_furigana tok defaultIgnoreNumbers text useRubyTags
      = generateFurigana (mecabReading tok) text defaultIgnoreNumbers useRubyTags := by
  unfold generateFurigana
  rw [if_neg, h3]
  · rfl
  · rw [List.isEmpty_eq_false.mpr h1, List.isEmpty_eq_false.mpr h2]
    simp

/-- Witness for the amended C3 on a concrete furigana-free text. -/
theorem api_furigana_agrees_on_clean_input_witness :
    ("abc".toList ≠ ([] : Str) ∧ pyStrip ("abc".toList) ≠ []
      ∧ removeFurigana ("abc".toList) = "abc".toList)
    ∧ api_furigana (fun _ => []) true ("abc".toList) false
        = generateFurigana (mecabReading (fun _ => [])) ("abc".toList) true false :=
  ⟨⟨by decide, by decide, by decide⟩,
    api_furigana_agrees_on_clean_input (fun _ => []) true false ("abc".toList)
      (by decide) (by decide) (by decide)⟩

/-! ## Claim C6: strip idempotence -/

/-- C6: removeFurigana is idempotent, and text with no annotation of
either encoding passes through unchanged. -/
theorem removeFurigana_idempotent (x : Str) :
    removeFurigana (removeFurigana x) = removeFurigana x
    ∧ (annotationFree x = true → removeFurigana x = x) := by
  constructor
  · exact stripFuel_of_fix _ _ (stripFuel_reaches x.length x le_rfl)
  · intro h
    exact stripFuel_of_fix _ _ (strip1F_of_annotationFree x.length x le_rfl h)

/-- Witness for C6: idempotence at a text whose first strip pass
creates a fresh annotation, and pass-through at an annotation-free
text. -/
theorem removeFurigana_idempotent_witness :
    removeFurigana (removeFurigana ("a[b][c]".toList))
        = removeFurigana ("a[b][c]".toList)
    ∧ (annotationFree ("hello <b>x</b>".toList) = true
        ∧ removeFurigana ("hello <b>x</b>".toList) = "hello <b>x</b>".toList) :=
  ⟨(removeFurigana_idempotent ("a[b][c]".toList)).1,
    by decide,
    (removeFurigana_idempotent ("hello <b>x</b>".toList)).2 (by decide)⟩

/-! ## Claim C10: the effectively-empty test -/

/-- C10: is_field_effectively_empty holds exactly when the string is
empty, or when removing tags, stripping outer whitespace and then
deleting every nbsp entity leaves the empty string; markup-only or
lone-entity content counts as empty, while two entities separated by an
interior space do not. -/
theorem is_field_effectively_empty_spec :
    (∀ s : Str, is_field_effectively_empty s = true
      ↔ (s = [] ∨ deleteNbsp (pyStrip (removeTags s)) = []))
    ∧ is_field_effectively_empty ("<br>".toList) = true
    ∧ is_field_effectively_empty ("&nbsp;".toList) = true
    ∧ is_field_effectively_empty ("&nbsp; &nbsp;".toList) = false := by
  refine ⟨?_, by decide, by decide, by decide⟩
  intro s
  unfold is_field_effectively_empty
  split
  · rename_i h
    simp [h]
  · rename_i h
    simp [List.isEmpty_iff, h]

/-! ## Note and pair lemmas -/

theorem noteGet_noteSet_ne (g v : Str) (f : Str) (hf : f ≠ g) :
    ∀ (note : Note), noteGet (noteSet note g v) f = noteGet note f := by
  intro note
  induction note with
  | nil => rfl
  | cons kv rest ih =>
    rw [noteSet]
    by_cases hg : kv.1 = g
    · rw [if_pos hg, noteGet, noteGet, if_neg (by rw [hg]; exact fun h => hf h.symm),
        if_neg (by rw [hg]; exact fun h => hf h.symm)]
      exact ih
    · rw [if_neg hg, noteGet, noteGet]
      by_cases hkf : kv.1 = f
      · rw [if_pos hkf, if_pos hkf]
      · rw [if_neg hkf, if_neg hkf]
        exact ih

theorem processPair_flag_mono (gen : Str → Str) (acc : Note × Bool) (p : FieldPair)
    (h : acc.2 = true) : (processPair gen acc p).2 = true := by
  unfold processPair
  split
  · exact h
  · split
    · split
      · exact h
      · split
        · rfl
        · exact h
    · exact h

theorem foldl_processPair_flag_mono (gen : Str → Str) :
    ∀ (pairs : List FieldPair) (acc : Note × Bool), acc.2 = true →
      (pairs.foldl (processPair gen) acc).2 = true := by
  intro pairs
  induction pairs with
  | nil => intro acc h; exact h
  | cons p rest ih =>
    intro acc h
    exact ih (processPair gen acc p) (processPair_flag_mono gen acc p h)

theorem processPair_of_flag_false (gen : Str → Str) (acc : Note × Bool) (p : FieldPair)
    (h : (processPair gen acc p).2 = false) : processPair gen acc p = acc := by
  unfold processPair at h ⊢
  split
  · rfl
  · rename_i hsd
    rw [if_neg hsd] at h
    split
    · rename_i sv dv hg1 hg2
      simp only [hg1, hg2] at h
      split
      · rfl
      · rename_i hsv
        simp only [if_neg hsv] at h
        split
        · rename_i hne
          simp [if_pos hne] at h
        · rfl
    · rfl

theorem foldl_processPair_of_flag_false (gen : Str → Str) :
    ∀ (pairs : List FieldPair) (acc : Note × Bool),
      (pairs.foldl (processPair gen) acc).2 = false →
      pairs.foldl (processPair gen) acc = acc := by
  intro pairs
  induction pairs with
  | nil => intro acc _; rfl
  | cons p rest ih =>
    intro acc h
    rw [List.foldl_cons] at h ⊢
    have hp : (processPair gen acc p).2 = false := by
      cases hpf : (processPair gen acc p).2 with
      | false => rfl
      | true =>
        rw [foldl_processPair_flag_mono gen rest (processPair gen acc p) hpf] at h
        exact absurd h (by simp)
    rw [processPair_of_flag_false gen acc p hp] at h ⊢
    exact ih acc h

theorem processPair_frame (gen : Str → Str) (acc : Note × Bool) (p : FieldPair)
    (f : Str) (hf : f ≠ p.destination) :
    noteGet (processPair gen acc p).1 f = noteGet acc.1 f := by
  unfold processPair
  split
  · rfl
  · split
    · split
      · rfl
      · split
        · exact noteGet_noteSet_ne p.destination _ f hf acc.1
        · rfl
    · rfl

theorem foldl_processPair_frame (gen : Str → Str) :
    ∀ (pairs : List FieldPair) (acc : Note × Bool) (f : Str),
      f ∉ pairDests pairs →
      noteGet (pairs.foldl (processPair gen) acc).1 f = noteGet acc.1 f := by
  intro pairs
  induction pairs with
  | nil => intro acc f _; rfl
  | cons p rest ih =>
    intro acc f hf
    have hf1 : f ≠ p.destination := by
      intro he
      exact hf (by rw [he]; exact List.mem_cons_self _ _)
    have hf2 : f ∉ pairDests rest := by
      intro hm
      exact hf (List.mem_cons_of_mem _ hm)
    rw [List.foldl_cons, ih (processPair gen acc p) f hf2,
      processPair_frame gen acc p f hf1]

theorem processNote_frame (gen : Str → Str) (pairs : List FieldPair) (note : Note)
    (f : Str) (hf : f ∉ pairDests pairs) :
    noteGet (processNote gen pairs note).1 f = noteGet note f :=
  foldl_processPair_frame gen pairs (note, false) f hf

theorem processPair_of_noOp (gen : Str → Str) (note : Note) (b : Bool) (p : FieldPair)
    (h : pairNoOp gen note p = true) : processPair gen (note, b) p = (note, b) := by
  unfold pairNoOp at h
  unfold processPair
  split
  · rfl
  · rename_i hsd
    have hs : (p.source == ([] : Str)) = false := by
      cases hbe : p.source == ([] : Str) with
      | false => rfl
      | true => exact absurd (Or.inl (eq_of_beq hbe)) hsd
    have hd : (p.destination == ([] : Str)) = false := by
      cases hbe : p.destination == ([] : Str) with
      | false => rfl
      | true => exact absurd (Or.inr (eq_of_beq hbe)) hsd
    rw [hs, hd] at h
    simp only [Bool.false_or] at h
    split
    · rename_i sv dv hg1 hg2
      simp only [hg1, hg2, Bool.or_eq_true, beq_iff_eq] at h
      rcases h with h | h
      · rw [if_pos h]
      · by_cases hsv : sv = []
        · rw [if_pos hsv]
        · rw [if_neg hsv, if_neg (fun hne => hne h.symm)]
    · rfl

theorem processNote_of_noOps (gen : Str → Str) :
    ∀ (pairs : List FieldPair) (note : Note) (b : Bool),
      (∀ p ∈ pairs, pairNoOp gen note p = true) →
      pairs.foldl (processPair gen) (note, b) = (note, b) := by
  intro pairs
  induction pairs with
  | nil => intro note b _; rfl
  | cons p rest ih =>
    intro note b h
    rw [List.foldl_cons, processPair_of_noOp gen note b p (h p (List.mem_cons_self _ _))]
    exact ih note b (fun q hq => h q (List.mem_cons_of_mem _ hq))

/-! ## bulkRun lemmas -/

theorem clockStep_col (total : Nat) (τ : Nat → Rat) (i : Nat) (st : BulkState) :
    (clockStep total τ i st).col = st.col := by
  unfold clockStep
  split <;> rfl

theorem clockStep_writes (total : Nat) (τ : Nat → Rat) (i : Nat) (st : BulkState) :
    (clockStep total τ i st).writes = st.writes := by
  unfold clockStep
  split <;> rfl

theorem clockStep_count (total : Nat) (τ : Nat → Rat) (i : Nat) (st : BulkState) :
    (clockStep total τ i st).count = st.count := by
  unfold clockStep
  split <;> rfl

theorem noteStep_events (gen : Str → Str) (pairs : List FieldPair) (nid : Nat)
    (st : BulkState) : (noteStep gen pairs nid st).events = st.events := by
  unfold noteStep
  split <;> rfl

theorem noteStep_clock (gen : Str → Str) (pairs : List FieldPair) (nid : Nat)
    (st : BulkState) : (noteStep gen pairs nid st).clock = st.clock := by
  unfold noteStep
  split <;> rfl

theorem noteStep_last (gen : Str → Str) (pairs : List FieldPair) (nid : Nat)
    (st : BulkState) : (noteStep gen pairs nid st).last = st.last := by
  unfold noteStep
  split <;> rfl

theorem noteStep_pos (gen : Str → Str) (pairs : List FieldPair) (nid : Nat)
    (st : BulkState) (h : (processNote gen pairs (st.col nid)).2 = true) :
    noteStep gen pairs nid st =
      { st with
        col := fun m => if m = nid then (processNote gen pairs (st.col nid)).1
          else st.col m
        writes := st.writes ++ [nid]
        count := st.count + 1 } := by
  unfold noteStep
  rw [if_pos h]

theorem noteStep_neg (gen : Str → Str) (pairs : List FieldPair) (nid : Nat)
    (st : BulkState) (h : (processNote gen pairs (st.col nid)).2 = false) :
    noteStep gen pairs nid st = st := by
  unfold noteStep
  rw [if_neg (by rw [h]; simp)]

theorem bulkRun_master (gen : Str → Str) (pairs : List FieldPair) (total : Nat)
    (τ : Nat → Rat) (col0 : Nat → Note) :
    ∀ (nids : List Nat) (i : Nat) (st : BulkState), nids.Nodup →
      (∀ nid ∈ nids, st.col nid = col0 nid) →
      (bulkRun gen pairs total τ nids i st).writes
          = st.writes ++ nids.filter (fun nid => (processNote gen pairs (col0 nid)).2)
      ∧ (bulkRun gen pairs total τ nids i st).count
          = st.count
            + (nids.filter (fun nid => (processNote gen pairs (col0 nid)).2)).length := by
  intro nids
  induction nids with
  | nil =>
    intro i st _ _
    exact ⟨(List.append_nil _).symm, rfl⟩
  | cons nid rest ih =>
    intro i st hnd hagree
    have hnd' := (List.nodup_cons.mp hnd)
    have hcol : st.col nid = col0 nid := hagree nid (List.mem_cons_self _ _)
    rw [bulkRun]
    cases hm : (processNote gen pairs (col0 nid)).2 with
    | true =>
      have hstep : noteStep gen pairs nid st =
          { st with
            col := fun m => if m = nid then (processNote gen pairs (st.col nid)).1
              else st.col m
            writes := st.writes ++ [nid]
            count := st.count + 1 } :=
        noteStep_pos gen pairs nid st (by rw [hcol]; exact hm)
      have hagree' : ∀ m ∈ rest,
          (bulkStep gen pairs total τ i nid st).col m = col0 m := by
        intro m hmem
        rw [bulkStep, clockStep_col, hstep]
        have hne : m ≠ nid := fun he => hnd'.1 (he ▸ hmem)
        simp only [if_neg hne]
        exact hagree m (List.mem_cons_of_mem _ hmem)
      obtain ⟨hw, hc⟩ := ih (i + 1) (bulkStep gen pairs total τ i nid st) hnd'.2 hagree'
      rw [hw, hc, bulkStep, clockStep_writes, clockStep_count, hstep]
      rw [List.filter_cons_of_pos (by simpa using hm)]
      constructor
      · simp [List.append_assoc]
      · simp [Nat.add_assoc, Nat.add_comm 1]
    | false =>
      have hstep : noteStep gen pairs nid st = st :=
        noteStep_neg gen pairs nid st (by rw [hcol]; exact hm)
      have hagree' : ∀ m ∈ rest,
          (bulkStep gen pairs total τ i nid st).col m = col0 m := by
        intro m hmem
        rw [bulkStep, clockStep_col, hstep]
        exact hagree m (List.mem_cons_of_mem _ hmem)
      obtain ⟨hw, hc⟩ := ih (i + 1) (bulkStep gen pairs total τ i nid st) hnd'.2 hagree'
      rw [hw, hc, bulkStep, clockStep_writes, clockStep_count, hstep]
      rw [List.filter_cons_of_neg (by simpa using hm)]
      exact ⟨rfl, rfl⟩

theorem bulkRun_col_frame (gen : Str → Str) (pairs : List FieldPair) (total : Nat)
    (τ : Nat → Rat) :
    ∀ (nids : List Nat) (i : Nat) (st : BulkState) (nid : Nat) (f : Str),
      f ∉ pairDests pairs →
      noteGet ((bulkRun gen pairs total τ nids i st).col nid) f
        = noteGet (st.col nid) f := by
  intro nids
  induction nids with
  | nil => intro i st nid f _; rfl
  | cons nid' rest ih =>
    intro i st nid f hf
    rw [bulkRun, ih (i + 1) _ nid f hf, bulkStep, clockStep_col]
    unfold noteStep
    split
    · simp only
      by_cases he : nid = nid'
      · rw [if_pos he, he]
        exact processNote_frame gen pairs (st.col nid') f hf
      · rw [if_neg he]
    · rfl

theorem bulkRun_unwritten (gen : Str → Str) (pairs : List FieldPair) (total : Nat)
    (τ : Nat → Rat) :
    ∀ (nids : List Nat) (i : Nat) (st : BulkState) (nid : Nat),
      nid ∉ (bulkRun gen pairs total τ nids i st).writes →
      (bulkRun gen pairs total τ nids i st).col nid = st.col nid
        ∧ nid ∉ st.writes := by
  intro nids
  induction nids with
  | nil => intro i st nid h; exact ⟨rfl, h⟩
  | cons nid' rest ih =>
    intro i st nid h
    rw [bulkRun] at h ⊢
    obtain ⟨hcol, hmem⟩ := ih (i + 1) (bulkStep gen pairs total τ i nid' st) nid h
    rw [bulkStep, clockStep_writes] at hmem
    rw [hcol, bulkStep, clockStep_col]
    unfold noteStep at hmem ⊢
    split at hmem
    · rename_i hflag
      rw [if_pos hflag]
      simp only [List.mem_append, List.mem_singleton, not_or] at hmem
      exact ⟨by simp only [if_neg hmem.2], hmem.1⟩
    · rename_i hflag
      rw [if_neg hflag]
      exact ⟨rfl, hmem⟩

/-! ## Claim C5: bulk count and no-op items -/

/-- C5: bulkGenerate returns the number of notes actually modified: the
count equals the length of the filter of the whole id list by the
per-note modification flag (so every note of the batch is processed and
no-op items do not abort the run), the count equals the number of
update_note calls, and a note all of whose pairs are no-ops is not
flagged as modified. -/
theorem bulkGenerate_count_spec (gen : Str → Str) (pairs : List FieldPair)
    (τ : Nat → Rat) (noteIds : List Nat) (col0 : Nat → Note)
    (hnd : noteIds.Nodup) :
    (bulkGenerate gen pairs τ noteIds col0).count
        = (noteIds.filter (fun nid => (processNote gen pairs (col0 nid)).2)).length
    ∧ (bulkGenerate gen pairs τ noteIds col0).count
        = (bulkGenerate gen pairs τ noteIds col0).writes.length
    ∧ ∀ nid : Nat, (∀ p ∈ pairs, pairNoOp gen (col0 nid) p = true) →
        (processNote gen pairs (col0 nid)).2 = false := by
  obtain ⟨hw, hc⟩ := bulkRun_master gen pairs noteIds.length τ col0 noteIds 0
    { col := col0, writes := [], count := 0, events := [], clock := 0, last := 0 }
    hnd (fun _ _ => rfl)
  refine ⟨?_, ?_, ?_⟩
  · rw [bulkGenerate, hc]
    simp
  · rw [bulkGenerate, hc, hw]
    simp
  · intro nid hno
    unfold processNote
    rw [processNote_of_noOps gen pairs (col0 nid) false hno]

/-- Witness for C5 on a two-note batch with one modified note and one
no-op note. -/
theorem bulkGenerate_count_spec_witness :
    ([0, 1] : List Nat).Nodup
    ∧ ((bulkGenerate (fun s => 'g' :: s)
          [⟨"E".toList, "R".toList⟩] (fun _ => 0) [0, 1]
          (fun n => if n = 0 then [("E".toList, "x".toList), ("R".toList, [])]
            else [("E".toList, "x".toList), ("R".toList, "gx".toList)])).count
        = (([0, 1] : List Nat).filter (fun nid =>
            (processNote (fun s => 'g' :: s) [⟨"E".toList, "R".toList⟩]
              ((fun n => if n = 0 then [("E".toList, "x".toList), ("R".toList, [])]
                else [("E".toList, "x".toList), ("R".toList, "gx".toList)]) nid)).2)).length
      ∧ (bulkGenerate (fun s => 'g' :: s)
          [⟨"E".toList, "R".toList⟩] (fun _ => 0) [0, 1]
          (fun n => if n = 0 then [("E".toList, "x".toList), ("R".toList, [])]
            else [("E".toList, "x".toList), ("R".toList, "gx".toList)])).count
        = (bulkGenerate (fun s => 'g' :: s)
            [⟨"E".toList, "R".toList⟩] (fun _ => 0) [0, 1]
            (fun n => if n = 0 then [("E".toList, "x".toList), ("R".toList, [])]
              else [("E".toList, "x".toList), ("R".toList, "gx".toList)])).writes.length
      ∧ ∀ nid : Nat, (∀ p ∈ [(⟨"E".toList, "R".toList⟩ : FieldPair)],
            pairNoOp (fun s => 'g' :: s)
              ((fun n => if n = 0 then [("E".toList, "x".toList), ("R".toList, [])]
                else [("E".toList, "x".toList), ("R".toList, "gx".toList)]) nid) p = true) →
          (processNote (fun s => 'g' :: s) [⟨"E".toList, "R".toList⟩]
            ((fun n => if n = 0 then [("E".toList, "x".toList), ("R".toList, [])]
              else [("E".toList, "x".toList), ("R".toList, "gx".toList)]) nid)).2 = false) :=
  ⟨by decide,
    bulkGenerate_count_spec (fun s => 'g' :: s) [⟨"E".toList, "R".toList⟩]
      (fun _ => 0) [0, 1]
      (fun n => if n = 0 then [("E".toList, "x".toList), ("R".toList, [])]
        else [("E".toList, "x".toList), ("R".toList, "gx".toList)])
      (by decide)⟩

/-! ## Progress throttling lemmas -/

theorem chain'_concat_gap (l : List (Nat × Nat × Rat)) (e : Nat × Nat × Rat)
    (hc : List.Chain' gapOK l) (h : ∀ x ∈ l, x.2.2 + 1 / 10 ≤ e.2.2) :
    List.Chain' gapOK (l ++ [e]) := by
  rw [List.chain'_append]
  refine ⟨hc, List.chain'_singleton e, ?_⟩
  intro x hx y hy
  simp at hy
  subst hy
  exact h x (List.mem_of_mem_getLast? hx)

theorem clockStep_invariants (total : Nat) (τ : Nat → Rat) (i : Nat) (st : BulkState)
    (hmono : ∀ a b : Nat, a ≤ b → τ a ≤ τ b)
    (hchain : List.Chain' gapOK st.events)
    (hlast : ∀ e ∈ st.events, e.2.2 ≤ st.last)
    (hpay : ∀ e ∈ st.events, e.2.1 = total ∧ 1 ≤ e.1 ∧ e.1 ≤ total)
    (hi : i + 1 ≤ total) :
    List.Chain' gapOK (clockStep total τ i st).events
    ∧ (∀ e ∈ (clockStep total τ i st).events, e.2.2 ≤ (clockStep total τ i st).last)
    ∧ (∀ e ∈ (clockStep total τ i st).events,
        e.2.1 = total ∧ 1 ≤ e.1 ∧ e.1 ≤ total) := by
  unfold clockStep
  split
  · rename_i hfire
    have hfire' : st.last + 1 / 10 ≤ τ st.clock := by
      have := hfire
      linarith
    have hmono1 : τ st.clock ≤ τ (st.clock + 1) := hmono _ _ (Nat.le_succ _)
    refine ⟨?_, ?_, ?_⟩
    · apply chain'_concat_gap _ _ hchain
      intro x hx
      have := hlast x hx
      show x.2.2 + 1 / 10 ≤ τ st.clock
      linarith
    · intro e he
      simp only [List.mem_append, List.mem_singleton] at he
      show e.2.2 ≤ τ (st.clock + 1)
      rcases he with he | he
      · have := hlast e he
        linarith
      · subst he
        show τ st.clock ≤ τ (st.clock + 1)
        linarith
    · intro e he
      simp only [List.mem_append, List.mem_singleton] at he
      rcases he with he | he
      · exact hpay e he
      · subst he
        exact ⟨rfl, by omega, hi⟩
  · exact ⟨hchain, hlast, hpay⟩

theorem bulkRun_progress (gen : Str → Str) (pairs : List FieldPair) (total : Nat)
    (τ : Nat → Rat) (hmono : ∀ a b : Nat, a ≤ b → τ a ≤ τ b) :
    ∀ (nids : List Nat) (i : Nat) (st : BulkState),
      i + nids.length = total →
      List.Chain' gapOK st.events →
      (∀ e ∈ st.events, e.2.2 ≤ st.last) →
      (∀ e ∈ st.events, e.2.1 = total ∧ 1 ≤ e.1 ∧ e.1 ≤ total) →
      List.Chain' gapOK (bulkRun gen pairs total τ nids i st).events
      ∧ (∀ e ∈ (bulkRun gen pairs total τ nids i st).events,
          e.2.1 = total ∧ 1 ≤ e.1 ∧ e.1 ≤ total) := by
  intro nids
  induction nids with
  | nil => intro i st _ hchain _ hpay; exact ⟨hchain, hpay⟩
  | cons nid rest ih =>
    intro i st htot hchain hlast hpay
    rw [bulkRun]
    have hn_ev := noteStep_events gen pairs nid st
    have hn_la := noteStep_last gen pairs nid st
    obtain ⟨hc1, hc2, hc3⟩ := clockStep_invariants total τ i (noteStep gen pairs nid st)
      hmono
      (by rw [hn_ev]; exact hchain)
      (by rw [hn_ev, hn_la]; exact hlast)
      (by rw [hn_ev]; exact hpay)
      (by simp only [List.length_cons] at htot; omega)
    exact ih (i + 1) (bulkStep gen pairs total τ i nid st)
      (by simp only [List.length_cons] at htot; omega) hc1 hc2 hc3

/-! ## Claim C8: throttled progress reporting -/

/-- C8: the progress invocations of bulkGenerate, recorded as (done,
total, invocation time) triples where done is i + 1 at the step that
processed the i-th note (the number of notes processed so far) and
total is the batch size: any two consecutive invocations are at least a
tenth of a second apart whenever the clock is monotone, and every
invocation carries the batch size and a done count between 1 and the
batch size. -/
theorem bulkGenerate_progress (gen : Str → Str) (pairs : List FieldPair)
    (τ : Nat → Rat) (noteIds : List Nat) (col0 : Nat → Note)
    (hmono : ∀ a b : Nat, a ≤ b → τ a ≤ τ b) :
    List.Chain' gapOK (bulkGenerate gen pairs τ noteIds col0).events
    ∧ ∀ e ∈ (bulkGenerate gen pairs τ noteIds col0).events,
        e.2.1 = noteIds.length ∧ 1 ≤ e.1 ∧ e.1 ≤ noteIds.length := by
  exact bulkRun_progress gen pairs noteIds.length τ hmono noteIds 0 _ (by simp)
    List.chain'_nil (by intro e he; simp at he) (by intro e he; simp at he)

/-- Witness for C8 with the clock reading k + 1 at the k-th call. -/
theorem bulkGenerate_progress_witness :
    (∀ a b : Nat, a ≤ b → ((a : Rat) + 1) ≤ ((b : Rat) + 1))
    ∧ (List.Chain' gapOK
        (bulkGenerate (fun s => s) [] (fun k => (k : Rat) + 1) [0, 1]
          (fun _ => [])).events
      ∧ ∀ e ∈ (bulkGenerate (fun s => s) [] (fun k => (k : Rat) + 1) [0, 1]
          (fun _ => [])).events,
          e.2.1 = ([0, 1] : List Nat).length ∧ 1 ≤ e.1
            ∧ e.1 ≤ ([0, 1] : List Nat).length) := by
  have hmono : ∀ a b : Nat, a ≤ b → ((a : Rat) + 1) ≤ ((b : Rat) + 1) := by
    intro a b h
    have hab : (a : Rat) ≤ (b : Rat) := by exact_mod_cast h
    linarith
  exact ⟨hmono,
    bulkGenerate_progress (fun s => s) [] (fun k => (k : Rat) + 1) [0, 1]
      (fun _ => []) hmono⟩

/-! ## Scan update lemmas -/

theorem doPair_flag_mono (gen : Str → Str) (acc : Note × Bool) (p : FieldPair)
    (h : acc.2 = true) : (doPair gen acc p).2 = true := by
  unfold doPair
  split
  · split
    · exact h
    · split
      · split
        · rfl
        · exact h
      · exact h
  · exact h

theorem foldl_doPair_flag_mono (gen : Str → Str) :
    ∀ (pairs : List FieldPair) (acc : Note × Bool), acc.2 = true →
      (pairs.foldl (doPair gen) acc).2 = true := by
  intro pairs
  induction pairs with
  | nil => intro acc h; exact h
  | cons p rest ih =>
    intro acc h
    exact ih (doPair gen acc p) (doPair_flag_mono gen acc p h)

theorem doPair_of_flag_false (gen : Str → Str) (acc : Note × Bool) (p : FieldPair)
    (h : (doPair gen acc p).2 = false) : doPair gen acc p = acc := by
  unfold doPair at h ⊢
  split
  · rename_i sv dv hg1 hg2
    simp only [hg1, hg2] at h
    split
    · rfl
    · rename_i hsv
      simp only [if_neg hsv] at h
      split
      · rename_i hpre
        simp only [if_pos hpre] at h
        split
        · rename_i hne
          simp [if_pos hne] at h
        · rfl
      · rename_i hpre
        simp only [if_neg hpre] at h
        rfl
  · rfl

theorem foldl_doPair_of_flag_false (gen : Str → Str) :
    ∀ (pairs : List FieldPair) (acc : Note × Bool),
      (pairs.foldl (doPair gen) acc).2 = false →
      pairs.foldl (doPair gen) acc = acc := by
  intro pairs
  induction pairs with
  | nil => intro acc _; rfl
  | cons p rest ih =>
    intro acc h
    rw [List.foldl_cons] at h ⊢
    have hp : (doPair gen acc p).2 = false := by
      cases hpf : (doPair gen acc p).2 with
      | false => rfl
      | true =>
        rw [foldl_doPair_flag_mono gen rest (doPair gen acc p) hpf] at h
        exact absurd h (by simp)
    rw [doPair_of_flag_false gen acc p hp] at h ⊢
    exact ih acc h

theorem doPair_frame (gen : Str → Str) (acc : Note × Bool) (p : FieldPair)
    (f : Str) (hf : f ≠ p.destination) :
    noteGet (doPair gen acc p).1 f = noteGet acc.1 f := by
  unfold doPair
  split
  · split
    · rfl
    · split
      · split
        · exact noteGet_noteSet_ne p.destination _ f hf acc.1
        · rfl
      · rfl
  · rfl

theorem foldl_doPair_frame (gen : Str → Str) :
    ∀ (pairs : List FieldPair) (acc : Note × Bool) (f : Str),
      f ∉ pairDests pairs →
      noteGet (pairs.foldl (doPair gen) acc).1 f = noteGet acc.1 f := by
  intro pairs
  induction pairs with
  | nil => intro acc f _; rfl
  | cons p rest ih =>
    intro acc f hf
    have hf1 : f ≠ p.destination := by
      intro he
      exact hf (by rw [he]; exact List.mem_cons_self _ _)
    have hf2 : f ∉ pairDests rest := by
      intro hm
      exact hf (List.mem_cons_of_mem _ hm)
    rw [List.foldl_cons, ih (doPair gen acc p) f hf2, doPair_frame gen acc p f hf1]

theorem doRule_flag_mono (gen : Str → Str) (dn : DNote) (acc : Note × Bool)
    (rule : Rule) (h : acc.2 = true) : (doRule gen dn acc rule).2 = true := by
  unfold doRule
  split
  · exact h
  · split
    · exact foldl_doPair_flag_mono gen rule.fieldPairs acc h
    · exact h

theorem foldl_doRule_flag_mono (gen : Str → Str) (dn : DNote) :
    ∀ (rules : List Rule) (acc : Note × Bool), acc.2 = true →
      (rules.foldl (doRule gen dn) acc).2 = true := by
  intro rules
  induction rules with
  | nil => intro acc h; exact h
  | cons rule rest ih =>
    intro acc h
    exact ih (doRule gen dn acc rule) (doRule_flag_mono gen dn acc rule h)

theorem doRule_of_flag_false (gen : Str → Str) (dn : DNote) (acc : Note × Bool)
    (rule : Rule) (h : (doRule gen dn acc rule).2 = false) :
    doRule gen dn acc rule = acc := by
  unfold doRule at h ⊢
  split
  · rfl
  · rename_i dname hdeck
    simp only [hdeck] at h
    split
    · rename_i hm
      rw [if_pos hm] at h
      exact foldl_doPair_of_flag_false gen rule.fieldPairs acc h
    · rfl

theorem foldl_doRule_of_flag_false (gen : Str → Str) (dn : DNote) :
    ∀ (rules : List Rule) (acc : Note × Bool),
      (rules.foldl (doRule gen dn) acc).2 = false →
      rules.foldl (doRule gen dn) acc = acc := by
  intro rules
  induction rules with
  | nil => intro acc _; rfl
  | cons rule rest ih =>
    intro acc h
    rw [List.foldl_cons] at h ⊢
    have hp : (doRule gen dn acc rule).2 = false := by
      cases hpf : (doRule gen dn acc rule).2 with
      | false => rfl
      | true =>
        rw [foldl_doRule_flag_mono gen dn rest (doRule gen dn acc rule) hpf] at h
        exact absurd h (by simp)
    rw [doRule_of_flag_false gen dn acc rule hp] at h ⊢
    exact ih acc h

theorem doRule_frame (gen : Str → Str) (dn : DNote) (acc : Note × Bool)
    (rule : Rule) (f : Str) (hf : f ∉ pairDests rule.fieldPairs) :
    noteGet (doRule gen dn acc rule).1 f = noteGet acc.1 f := by
  unfold doRule
  split
  · rfl
  · split
    · exact foldl_doPair_frame gen rule.fieldPairs acc f hf
    · rfl

theorem ruleDests_cons (rule : Rule) (rest : List Rule) :
    ruleDests (rule :: rest) = pairDests rule.fieldPairs ++ ruleDests rest := rfl

theorem foldl_doRule_frame (gen : Str → Str) (dn : DNote) :
    ∀ (rules : List Rule) (acc : Note × Bool) (f : Str),
      f ∉ ruleDests rules →
      noteGet (rules.foldl (doRule gen dn) acc).1 f = noteGet acc.1 f := by
  intro rules
  induction rules with
  | nil => intro acc f _; rfl
  | cons rule rest ih =>
    intro acc f hf
    rw [ruleDests_cons] at hf
    simp only [List.mem_append, not_or] at hf
    rw [List.foldl_cons, ih (doRule gen dn acc rule) f hf.2,
      doRule_frame gen dn acc rule f hf.1]

theorem doUpdateNote_frame (gen : Str → Str) (rules : List Rule) (dn : DNote)
    (f : Str) (hf : f ∉ ruleDests rules) :
    noteGet (doUpdateNote gen rules dn).1 f = noteGet dn.fields f :=
  foldl_doRule_frame gen dn rules (dn.fields, false) f hf

theorem doUpdateNote_of_flag_false (gen : Str → Str) (rules : List Rule) (dn : DNote)
    (h : (doUpdateNote gen rules dn).2 = false) :
    (doUpdateNote gen rules dn).1 = dn.fields := by
  unfold doUpdateNote at h ⊢
  rw [foldl_doRule_of_flag_false gen dn rules (dn.fields, false) h]

theorem scanStep_pos (gen : Str → Str) (rules : List Rule) (nid : Nat)
    (st : ScanState) (h : (doUpdateNote gen rules (st.col nid)).2 = true) :
    scanStep gen rules nid st =
      { col := fun m =>
          if m = nid
          then { st.col nid with fields := (doUpdateNote gen rules (st.col nid)).1 }
          else st.col m
        flushes := st.flushes ++ [nid]
        count := st.count + 1 } := by
  unfold scanStep
  rw [if_pos h]

theorem scanStep_neg (gen : Str → Str) (rules : List Rule) (nid : Nat)
    (st : ScanState) (h : (doUpdateNote gen rules (st.col nid)).2 = false) :
    scanStep gen rules nid st = st := by
  unfold scanStep
  rw [if_neg (by rw [h]; simp)]

theorem scanRun_master (gen : Str → Str) (rules : List Rule) (col0 : Nat → DNote) :
    ∀ (nids : List Nat) (st : ScanState), nids.Nodup →
      (∀ nid ∈ nids, st.col nid = col0 nid) →
      (scanRun gen rules nids st).flushes
          = st.flushes
            ++ nids.filter (fun nid => (doUpdateNote gen rules (col0 nid)).2)
      ∧ (scanRun gen rules nids st).count
          = st.count
            + (nids.filter (fun nid => (doUpdateNote gen rules (col0 nid)).2)).length := by
  intro nids
  induction nids with
  | nil =>
    intro st _ _
    exact ⟨(List.append_nil _).symm, rfl⟩
  | cons nid rest ih =>
    intro st hnd hagree
    have hnd' := List.nodup_cons.mp hnd
    have hcol : st.col nid = col0 nid := hagree nid (List.mem_cons_self _ _)
    rw [scanRun]
    cases hm : (doUpdateNote gen rules (col0 nid)).2 with
    | true =>
      have hstep := scanStep_pos gen rules nid st (by rw [hcol]; exact hm)
      have hagree' : ∀ m ∈ rest, (scanStep gen rules nid st).col m = col0 m := by
        intro m hmem
        rw [hstep]
        have hne : m ≠ nid := fun he => hnd'.1 (he ▸ hmem)
        simp only [if_neg hne]
        exact hagree m (List.mem_cons_of_mem _ hmem)
      obtain ⟨hw, hc⟩ := ih (scanStep gen rules nid st) hnd'.2 hagree'
      rw [hw, hc, hstep, List.filter_cons_of_pos (by simpa using hm)]
      constructor
      · simp [List.append_assoc]
      · simp [Nat.add_assoc, Nat.add_comm 1]
    | false =>
      have hstep := scanStep_neg gen rules nid st (by rw [hcol]; exact hm)
      have hagree' : ∀ m ∈ rest, (scanStep gen rules nid st).col m = col0 m := by
        intro m hmem
        rw [hstep]
        exact hagree m (List.mem_cons_of_mem _ hmem)
      obtain ⟨hw, hc⟩ := ih (scanStep gen rules nid st) hnd'.2 hagree'
      rw [hw, hc, hstep, List.filter_cons_of_neg (by simpa using hm)]
      exact ⟨rfl, rfl⟩

theorem scanRun_col_frame (gen : Str → Str) (rules : List Rule) :
    ∀ (nids : List Nat) (st : ScanState) (nid : Nat) (f : Str),
      f ∉ ruleDests rules →
      noteGet (((scanRun gen rules nids st).col nid).fields) f
        = noteGet ((st.col nid).fields) f := by
  intro nids
  induction nids with
  | nil => intro st nid f _; rfl
  | cons nid' rest ih =>
    intro st nid f hf
    rw [scanRun, ih (scanStep gen rules nid' st) nid f hf]
    unfold scanStep
    split
    · simp only
      by_cases he : nid = nid'
      · rw [if_pos he, he]
        exact doUpdateNote_frame gen rules (st.col nid') f hf
      · rw [if_neg he]
    · rfl

theorem scanRun_deck (gen : Str → Str) (rules : List Rule) :
    ∀ (nids : List Nat) (st : ScanState) (nid : Nat),
      ((scanRun gen rules nids st).col nid).deck = ((st.col nid)).deck := by
  intro nids
  induction nids with
  | nil => intro st nid; rfl
  | cons nid' rest ih =>
    intro st nid
    rw [scanRun, ih (scanStep gen rules nid' st) nid]
    unfold scanStep
    split
    · simp only
      by_cases he : nid = nid'
      · rw [if_pos he, he]
      · rw [if_neg he]
    · rfl

theorem scanRun_unwritten (gen : Str → Str) (rules : List Rule) :
    ∀ (nids : List Nat) (st : ScanState) (nid : Nat),
      nid ∉ (scanRun gen rules nids st).flushes →
      (scanRun gen rules nids st).col nid = st.col nid ∧ nid ∉ st.flushes := by
  intro nids
  induction nids with
  | nil => intro st nid h; exact ⟨rfl, h⟩
  | cons nid' rest ih =>
    intro st nid h
    rw [scanRun] at h ⊢
    obtain ⟨hcol, hmem⟩ := ih (scanStep gen rules nid' st) nid h
    rw [hcol]
    unfold scanStep at hmem ⊢
    split at hmem
    · rename_i hflag
      rw [if_pos hflag]
      simp only [List.mem_append, List.mem_singleton, not_or] at hmem
      exact ⟨by simp only [if_neg hmem.2], hmem.1⟩
    · rename_i hflag
      rw [if_neg hflag]
      exact ⟨rfl, hmem⟩

/-! ## Claim C9: frame property of batch and scan writes -/

/-- C9: in bulkGenerate and in the background scan's update step, only
destination fields of the configured pairs are ever assigned (every
other field of every note keeps its content, and the scan also keeps
each note's deck), a note not passed to update_note (or flush) is
entirely unchanged, a note is written exactly when its processing set
the modified flag (which happens only at an assignment of a value
different from the destination's current content), and a note whose
processing did not set the flag has entirely unchanged fields. -/
theorem batch_and_scan_frame
    (gen : Str → Str) (pairs : List FieldPair) (τ : Nat → Rat)
    (noteIds : List Nat) (col0 : Nat → Note)
    (gen2 : Str → Str) (rules : List Rule) (nids : List Nat) (scol0 : Nat → DNote)
    (hnd : noteIds.Nodup) (hnd2 : nids.Nodup) :
    ((∀ (nid : Nat) (f : Str), f ∉ pairDests pairs →
        noteGet ((bulkGenerate gen pairs τ noteIds col0).col nid) f
          = noteGet (col0 nid) f)
      ∧ (∀ nid : Nat, nid ∉ (bulkGenerate gen pairs τ noteIds col0).writes →
          (bulkGenerate gen pairs τ noteIds col0).col nid = col0 nid)
      ∧ (∀ nid : Nat, nid ∈ (bulkGenerate gen pairs τ noteIds col0).writes
          ↔ nid ∈ noteIds ∧ (processNote gen pairs (col0 nid)).2 = true)
      ∧ (∀ nid : Nat, (processNote gen pairs (col0 nid)).2 = false →
          (processNote gen pairs (col0 nid)).1 = col0 nid))
    ∧ ((∀ (nid : Nat) (f : Str), f ∉ ruleDests rules →
        noteGet (((do_update gen2 rules nids scol0).col nid).fields) f
          = noteGet ((scol0 nid).fields) f)
      ∧ (∀ nid : Nat, ((do_update gen2 rules nids scol0).col nid).deck
          = (scol0 nid).deck)
      ∧ (∀ nid : Nat, nid ∉ (do_update gen2 rules nids scol0).flushes →
          (do_update gen2 rules nids scol0).col nid = scol0 nid)
      ∧ (∀ nid : Nat, nid ∈ (do_update gen2 rules nids scol0).flushes
          ↔ nid ∈ nids ∧ (doUpdateNote gen2 rules (scol0 nid)).2 = true)
      ∧ (∀ nid : Nat, (doUpdateNote gen2 rules (scol0 nid)).2 = false →
          (doUpdateNote gen2 rules (scol0 nid)).1 = (scol0 nid).fields)) := by
  obtain ⟨hbw, _⟩ := bulkRun_master gen pairs noteIds.length τ col0 noteIds 0
    { col := col0, writes := [], count := 0, events := [], clock := 0, last := 0 }
    hnd (fun _ _ => rfl)
  obtain ⟨hsw, _⟩ := scanRun_master gen2 rules scol0 nids
    { col := scol0, flushes := [], count := 0 } hnd2 (fun _ _ => rfl)
  refine ⟨⟨?_, ?_, ?_, ?_⟩, ?_, ?_, ?_, ?_, ?_⟩
  · intro nid f hf
    exact bulkRun_col_frame gen pairs noteIds.length τ noteIds 0 _ nid f hf
  · intro nid h
    exact (bulkRun_unwritten gen pairs noteIds.length τ noteIds 0 _ nid h).1
  · intro nid
    rw [bulkGenerate, hbw]
    simp [List.mem_filter]
  · intro nid h
    have := foldl_processPair_of_flag_false gen pairs (col0 nid, false) h
    unfold processNote
    rw [this]
  · intro nid f hf
    exact scanRun_col_frame gen2 rules nids _ nid f hf
  · intro nid
    exact scanRun_deck gen2 rules nids _ nid
  · intro nid h
    exact (scanRun_unwritten gen2 rules nids _ nid h).1
  · intro nid
    rw [do_update, hsw]
    simp [List.mem_filter]
  · intro nid h
    exact doUpdateNote_of_flag_false gen2 rules (scol0 nid) h

/-- Witness for C9 on concrete one-note batch and scan inputs. -/
theorem batch_and_scan_frame_witness :
    (([0] : List Nat).Nodup ∧ ([1] : List Nat).Nodup)
    ∧ (∀ nid : Nat,
        nid ∈ (bulkGenerate (fun s => 'g' :: s) [⟨"E".toList, "R".toList⟩]
          (fun _ => 0) [0]
          (fun _ => [("E".toList, "x".toList), ("R".toList, [])])).writes
        ↔ nid ∈ ([0] : List Nat)
          ∧ (processNote (fun s => 'g' :: s) [⟨"E".toList, "R".toList⟩]
              ((fun _ => [("E".toList, "x".toList), ("R".toList, [])]) nid)).2 = true) :=
  ⟨⟨by decide, by decide⟩,
    ((batch_and_scan_frame (fun s => 'g' :: s) [⟨"E".toList, "R".toList⟩]
      (fun _ => 0) [0] (fun _ => [("E".toList, "x".toList), ("R".toList, [])])
      (fun s => s) [] [1] (fun _ => ⟨[], none⟩)
      (by decide) (by decide)).1).2.2.1⟩

/-! ## find_notes_to_process lemmas -/

theorem mem_insertId (acc : List Nat) (nid x : Nat) :
    x ∈ insertId acc nid ↔ x ∈ acc ∨ x = nid := by
  unfold insertId
  split
  · rename_i hmem
    constructor
    · exact Or.inl
    · rintro (h | h)
      · exact h
      · exact h ▸ hmem
  · simp [List.mem_append]

theorem mem_scanNids (getNote : Nat → Note) (rule : Rule) :
    ∀ (nids acc : List Nat) (x : Nat),
      x ∈ scanNids getNote rule nids acc
      ↔ x ∈ acc
        ∨ (x ∈ nids ∧ rule.fieldPairs.any (pairTriggers (getNote x)) = true) := by
  intro nids
  induction nids with
  | nil =>
    intro acc x
    simp [scanNids]
  | cons nid rest ih =>
    intro acc x
    rw [scanNids, ih]
    cases hpred : rule.fieldPairs.any (pairTriggers (getNote nid)) with
    | true =>
      rw [if_pos rfl, mem_insertId]
      constructor
      · rintro ((h | h) | ⟨h1, h2⟩)
        · exact Or.inl h
        · subst h
          exact Or.inr ⟨List.mem_cons_self _ _, hpred⟩
        · exact Or.inr ⟨List.mem_cons_of_mem _ h1, h2⟩
      · rintro (h | ⟨h1, h2⟩)
        · exact Or.inl (Or.inl h)
        · rcases List.mem_cons.mp h1 with h1 | h1
          · exact Or.inl (Or.inr h1)
          · exact Or.inr ⟨h1, h2⟩
    | false =>
      rw [if_neg (by simp)]
      constructor
      · rintro (h | ⟨h1, h2⟩)
        · exact Or.inl h
        · exact Or.inr ⟨List.mem_cons_of_mem _ h1, h2⟩
      · rintro (h | ⟨h1, h2⟩)
        · exact Or.inl h
        · rcases List.mem_cons.mp h1 with h1 | h1
          · rw [h1] at h2
            rw [h2] at hpred
            exact absurd hpred (by simp)
          · exact Or.inr ⟨h1, h2⟩

theorem mem_findLoop (findNotes : Str → List Nat) (getNote : Nat → Note) :
    ∀ (rules : List Rule) (acc : List Nat) (x : Nat),
      x ∈ findLoop findNotes getNote rules acc
      ↔ x ∈ acc
        ∨ ∃ rule ∈ rules, rule.deckName ≠ []
            ∧ x ∈ findNotes rule.deckName
            ∧ rule.fieldPairs.any (pairTriggers (getNote x)) = true := by
  intro rules
  induction rules with
  | nil =>
    intro acc x
    simp [findLoop]
  | cons rule rest ih =>
    intro acc x
    rw [findLoop, ih]
    by_cases hdeck : rule.deckName = []
    · rw [if_pos hdeck]
      constructor
      · rintro (h | h)
        · exact Or.inl h
        · obtain ⟨r, hr, h⟩ := h
          exact Or.inr ⟨r, List.mem_cons_of_mem _ hr, h⟩
      · rintro (h | ⟨r, hr, hne, hmem, hany⟩)
        · exact Or.inl h
        · rcases List.mem_cons.mp hr with hr | hr
          · exact absurd (hr ▸ hdeck) hne
          · exact Or.inr ⟨r, hr, hne, hmem, hany⟩
    · rw [if_neg hdeck]
      rw [mem_scanNids]
      constructor
      · rintro ((h | ⟨h1, h2⟩) | h)
        · exact Or.inl h
        · exact Or.inr ⟨rule, List.mem_cons_self _ _, hdeck, h1, h2⟩
        · obtain ⟨r, hr, h⟩ := h
          exact Or.inr ⟨r, List.mem_cons_of_mem _ hr, h⟩
      · rintro (h | ⟨r, hr, hne, hmem, hany⟩)
        · exact Or.inl (Or.inl h)
        · rcases List.mem_cons.mp hr with hr | hr
          · subst hr
            exact Or.inl (Or.inr ⟨hmem, hany⟩)
          · exact Or.inr ⟨r, hr, hne, hmem, hany⟩

/-! ## Claim C7: the scan pre-filter -/

/-- C7: a note id is selected by find_notes_to_process exactly when
some configured rule has a non-empty deck name whose query returns the
id and some of the rule's field pairs triggers on the note; and for a
pair whose source and destination fields are present with a non-empty
source, the pair triggers exactly when the spec's pure predicate
needsGeneration holds: the destination is effectively empty or the
destination text equals the source text. -/
theorem find_notes_pre_filter (findNotes : Str → List Nat) (getNote : Nat → Note)
    (rules : List Rule) :
    (∀ x : Nat, x ∈ find_notes_to_process findNotes getNote rules
      ↔ ∃ rule ∈ rules, rule.deckName ≠ []
          ∧ x ∈ findNotes rule.deckName
          ∧ rule.fieldPairs.any (pairTriggers (getNote x)) = true)
    ∧ ∀ (note : Note) (p : FieldPair) (sv dv : Str),
        noteGet note p.source = some sv → noteGet note p.destination = some dv →
        sv ≠ [] →
        (pairTriggers note p = true ↔ needsGeneration sv dv = true) := by
  constructor
  · intro x
    rw [find_notes_to_process, mem_findLoop]
    simp
  · intro note p sv dv hg1 hg2 hsv
    unfold pairTriggers needsGeneration
    simp only [hg1, hg2, List.isEmpty_eq_false.mpr hsv]
    simp

/-- Witness for C7 on a one-rule one-pair configuration and a concrete
note with an empty destination. -/
theorem find_notes_pre_filter_witness :
    (noteGet [("E".toList, "x".toList), ("R".toList, [])] ("E".toList)
        = some ("x".toList)
      ∧ noteGet [("E".toList, "x".toList), ("R".toList, [])] ("R".toList)
        = some []
      ∧ ("x".toList : Str) ≠ [])
    ∧ (pairTriggers [("E".toList, "x".toList), ("R".toList, [])]
          ⟨"E".toList, "R".toList⟩ = true
        ↔ needsGeneration ("x".toList) [] = true) :=
  ⟨⟨by decide, by decide, by decide⟩,
    (find_notes_pre_filter (fun _ => []) (fun _ => []) []).2
      [("E".toList, "x".toList), ("R".toList, [])] ⟨"E".toList, "R".toList⟩
      ("x".toList) [] (by decide) (by decide) (by decide)⟩

end Furigana
